import Mathlib

/-!
Verification of the P2P overlay stack (BaseProto / HandshakeProto / SwarmProto /
MessageProto) against its natural-language specification.

The TypeScript sources are shallowly embedded:
* strings on the wire are modelled by their byte sequences (`List Nat`);
* the external Blake2b / Blake3 hash functions are kept as parameters of the
  definitions that use them (every claim settled here is independent of the
  concrete hash);
* the `lru-cache` library is modelled by an association list ordered by
  recency (most recent first) together with the `max`/`ttl` behaviour of its
  `set`/`get`/`has`/`delete` operations;
* asynchronous code is modelled with explicit state passing; the only
  genuinely recursive call chain (`HandshakeProto.sendRequest`) is modelled
  with a fuel parameter.
-/

namespace P2P

/-! ## Tools: routing.ts — XOR popcount distance and peer ordering -/

/-- Structural helper for `countSetBits`: the first argument is fuel, always
at least the number being processed, so the recursion mirrors the JS loop
`while (num) { count += num & 1; num >>= 1 }` exactly.  (A fuel parameter is
used instead of well-founded recursion so that concrete instances reduce
inside the kernel.) -/
def countSetBitsGo : Nat → Nat → Nat
  | _, 0 => 0
  | 0, _ + 1 => 0
  | fuel + 1, n + 1 => (n + 1) % 2 + countSetBitsGo fuel ((n + 1) / 2)

/-- `countSetBits` from `src/src/tools/routing.ts`: the number of set bits of a
nonnegative JS number, computed by repeated `num & 1` / `num >>= 1`. -/
def countSetBits (n : Nat) : Nat :=
  countSetBitsGo n n

theorem countSetBitsGo_congr :
    ∀ f₁ : Nat, ∀ f₂ n : Nat, n ≤ f₁ → n ≤ f₂ →
      countSetBitsGo f₁ n = countSetBitsGo f₂ n := by
  intro f₁
  induction f₁ with
  | zero =>
    intro f₂ n h1 _
    interval_cases n
    cases f₂ <;> rfl
  | succ f ih =>
    intro f₂ n h1 h2
    match n, f₂ with
    | 0, f₂ => cases f₂ <;> rfl
    | m + 1, 0 => omega
    | m + 1, g + 1 =>
      show (m + 1) % 2 + countSetBitsGo f ((m + 1) / 2)
          = (m + 1) % 2 + countSetBitsGo g ((m + 1) / 2)
      have hd : (m + 1) / 2 ≤ m := by omega
      rw [ih g ((m + 1) / 2) (by omega) (by omega)]

/-- The defining recurrence of the source loop: `countSetBits` adds the low
bit and recurses on the right shift. -/
theorem countSetBits_rec (n : Nat) :
    countSetBits n = if n = 0 then 0 else n % 2 + countSetBits (n / 2) := by
  match n with
  | 0 => rfl
  | m + 1 =>
    show (m + 1) % 2 + countSetBitsGo m ((m + 1) / 2) = _
    simp only [Nat.succ_ne_zero, if_false]
    rw [countSetBitsGo_congr m ((m + 1) / 2) ((m + 1) / 2) (by omega) le_rfl]
    rfl

/-- `calculateDistance` from `routing.ts`: sum of popcounts of bytewise XOR over
the common length of the two byte sequences. -/
def calculateDistance (a b : List Nat) : Nat :=
  ((a.zip b).map (fun p => countSetBits (Nat.xor p.1 p.2))).sum

/-- JS `new Set(candidates)` iteration order: deduplication keeping the first
occurrence of each element. -/
def dedupFirst {α : Type} [DecidableEq α] : List α → List α
  | [] => []
  | a :: l => a :: (dedupFirst l).filter (fun x => x ≠ a)

/-- One entry of the list produced by `orderPeers`: a candidate address paired
with its distance to the query (`PeerDistancePair` in the source). -/
structure PeerDistancePair (Address : Type) where
  peer : Address
  distance : Nat
deriving DecidableEq, Repr

/-- Comparison used by `distances.sort((a, b) => a.distance - b.distance)`. -/
def byDistance {Address : Type} (a b : PeerDistancePair Address) : Prop :=
  a.distance ≤ b.distance

instance {Address : Type} : @DecidableRel (PeerDistancePair Address) byDistance :=
  fun a b => Nat.decLe a.distance b.distance

instance {Address : Type} : IsTotal (PeerDistancePair Address) byDistance :=
  ⟨fun a b => Nat.le_total a.distance b.distance⟩

instance {Address : Type} : IsTrans (PeerDistancePair Address) byDistance :=
  ⟨fun _ _ _ hab hbc => Nat.le_trans hab hbc⟩

/-- `orderPeers` from `routing.ts`, parameterised by the Blake2b hash
(`hash : Address strings → bytes`): hash the query and each (deduplicated)
candidate, pair each candidate with its XOR-popcount distance to the query,
and sort ascending by distance.  JS `Array.prototype.sort` is a stable sort
under the comparator `a.distance - b.distance`, and a stable sort of a list
under a total preorder is unique, so stable `List.insertionSort` models it
exactly. -/
def orderPeers {Address : Type} [DecidableEq Address]
    (hash : Address → List Nat) (query : Address) (candidates : List Address) :
    List (PeerDistancePair Address) :=
  let key := hash query
  List.insertionSort byDistance
    ((dedupFirst candidates).map
      (fun peer => PeerDistancePair.mk peer (calculateDistance key (hash peer))))

/-- `SwarmProto.getNearestLocalPairs`: order the keys of the local peer table
by distance to the hash and keep the first `n`.  (`src/src/swarm-proto.ts`,
lines 41–45.) -/
def getNearestLocalPairs {Address : Type} [DecidableEq Address]
    (hash : Address → List Nat) (query : Address) (peerTableKeys : List Address)
    (n : Nat) : List (PeerDistancePair Address) :=
  (orderPeers hash query peerTableKeys).take n

/-- `SwarmProto.getNearestLocals`: addresses only. -/
def getNearestLocals {Address : Type} [DecidableEq Address]
    (hash : Address → List Nat) (query : Address) (peerTableKeys : List Address)
    (n : Nat) : List Address :=
  (getNearestLocalPairs hash query peerTableKeys n).map (fun p => p.peer)

theorem dedupFirst_sublist {α : Type} [DecidableEq α] (l : List α) :
    (dedupFirst l).Sublist l := by
  induction l with
  | nil => simp [dedupFirst]
  | cons a t ih =>
    exact List.Sublist.cons₂ a ((List.filter_sublist _).trans ih)

theorem mem_dedupFirst {α : Type} [DecidableEq α] {a : α} {l : List α} :
    a ∈ dedupFirst l ↔ a ∈ l := by
  constructor
  · exact fun h => (dedupFirst_sublist l).mem h
  · intro ha
    induction l with
    | nil => simp at ha
    | cons b t ih =>
      rcases List.mem_cons.mp ha with h | h
      · exact h ▸ List.mem_cons_self _ _
      · by_cases hab : a = b
        · exact hab ▸ List.mem_cons_self _ _
        · refine List.mem_cons_of_mem _ ?_
          simp only [List.mem_filter, decide_eq_true_eq]
          exact ⟨ih h, hab⟩

/-- `orderPeers` is sorted ascending by distance. -/
theorem orderPeers_sorted {Address : Type} [DecidableEq Address]
    (hash : Address → List Nat) (query : Address) (candidates : List Address) :
    (orderPeers hash query candidates).Pairwise
      (fun a b => a.distance ≤ b.distance) :=
  List.sorted_insertionSort byDistance _

/-- Every pair produced by `orderPeers` comes from the candidate list and
carries exactly its distance to the query key. -/
theorem orderPeers_mem {Address : Type} [DecidableEq Address]
    (hash : Address → List Nat) (query : Address) (candidates : List Address)
    {p : PeerDistancePair Address} (hp : p ∈ orderPeers hash query candidates) :
    p.peer ∈ candidates ∧
      p.distance = calculateDistance (hash query) (hash p.peer) := by
  unfold orderPeers at hp
  have hp2 := (List.perm_insertionSort byDistance _).mem_iff.mp hp
  rcases List.mem_map.mp hp2 with ⟨a, ha, rfl⟩
  exact ⟨mem_dedupFirst.mp ha, rfl⟩

/-! ## Model of the `lru-cache` library (the subset this code base uses)

An LRU cache is modelled as an association list ordered by recency, most
recent first.  `set` re-inserts the key at the front and, when the cache is at
capacity, drops the least recently used entry from the tail.  The TTL variant
additionally stores the insertion time; `has`/`get` treat an entry whose age
exceeds the TTL as absent (stale), exactly as `lru-cache` does. -/

/-- `cache.set(k, v)` on a cache bounded by `max` entries. -/
def lruSet {K V : Type} [DecidableEq K] (l : List (K × V)) (k : K) (v : V)
    (max : Nat) : List (K × V) :=
  (k, v) :: (l.filter (fun e => e.1 ≠ k)).take (max - 1)

/-- `cache.get(k)` (the value; the recency bump is irrelevant to the claims
proved here because every `set` in the sources re-inserts at the front). -/
def lruGet {K V : Type} [DecidableEq K] (l : List (K × V)) (k : K) : Option V :=
  (l.find? (fun e => e.1 = k)).map (fun e => e.2)

/-- `cache.has(k)`. -/
def lruHas {K V : Type} [DecidableEq K] (l : List (K × V)) (k : K) : Bool :=
  (lruGet l k).isSome

/-- `cache.delete(k)`. -/
def lruDelete {K V : Type} [DecidableEq K] (l : List (K × V)) (k : K) :
    List (K × V) :=
  l.filter (fun e => e.1 ≠ k)

theorem lruSet_length {K V : Type} [DecidableEq K] (l : List (K × V)) (k : K)
    (v : V) (max : Nat) (hmax : 1 ≤ max) :
    (lruSet l k v max).length ≤ max := by
  simp only [lruSet, List.length_cons]
  have := List.length_take_le (max - 1) (l.filter (fun e => e.1 ≠ k))
  omega

theorem mem_lruSet {K V : Type} [DecidableEq K] {l : List (K × V)} {k : K}
    {v : V} {max : Nat} {e : K × V} (he : e ∈ lruSet l k v max) :
    e = (k, v) ∨ e ∈ l := by
  rcases List.mem_cons.mp he with h | h
  · exact Or.inl h
  · exact Or.inr (List.mem_filter.mp ((List.take_sublist _ _).mem h)).1

/-! ## C5: the seed of the iterative lookup

`getNearestPeers` (`src/src/swarm-proto.ts`, line 93) seeds the iterative
lookup with `this.getNearestLocalPairs(hash, n)`, whose candidate set is
`Array.from(this.peers.keys())` — the handshake-layer peer table.  The peer
table is only ever populated by `addPeer` with remote peers (on handshake or
pulse success); the node's own address is never inserted, so, contrary to the
claim, the seed cannot contain self.  The theorems below are stated for an
arbitrary hash function because they hold (respectively fail) for every
choice of the Blake2b embedding. -/

/-- C5 (counterexample): with peer table `["bb", "ccc"]`, a node whose own
address is `"a"` seeds a lookup with `n = 3` from the peer table only; the
seed has just two members and does not include the node's own address, so the
seed is not "the n local candidates, including self". -/
theorem C5_counterexample :
    getNearestLocals (fun s => [s.length]) "q" ["bb", "ccc"] 3
        = ["ccc", "bb"] ∧
    "a" ∉ getNearestLocals (fun s => [s.length]) "q" ["bb", "ccc"] 3 := by
  decide

/-- C5 (amended): for every hash function, query key and count `n`, the seed
of the iterative lookup is the `n` candidates drawn from the local peer table
only — the node's own address, which is never a peer-table key, is not among
them — with the smallest XOR-popcount distance to the query key, sorted
ascending by that distance. -/
theorem C5_amended {Address : Type} [DecidableEq Address]
    (hash : Address → List Nat) (query : Address) (peerTableKeys : List Address)
    (selfAddr : Address) (n : Nat) (hself : selfAddr ∉ peerTableKeys) :
    (getNearestLocalPairs hash query peerTableKeys n).Pairwise
      (fun a b => a.distance ≤ b.distance) ∧
    (∀ p ∈ getNearestLocalPairs hash query peerTableKeys n,
      p.peer ∈ peerTableKeys ∧
      p.distance = calculateDistance (hash query) (hash p.peer)) ∧
    selfAddr ∉ getNearestLocals hash query peerTableKeys n ∧
    (∀ p ∈ getNearestLocalPairs hash query peerTableKeys n,
      ∀ c ∈ peerTableKeys,
        c ∉ getNearestLocals hash query peerTableKeys n →
        p.distance ≤ calculateDistance (hash query) (hash c)) := by
  refine ⟨?_, ?_, ?_, ?_⟩
  · exact (orderPeers_sorted hash query peerTableKeys).sublist
      (List.take_sublist _ _)
  · intro p hp
    exact orderPeers_mem hash query peerTableKeys
      ((List.take_sublist _ _).mem hp)
  · intro hmem
    rcases List.mem_map.mp hmem with ⟨p, hp, hpe⟩
    have := (orderPeers_mem hash query peerTableKeys
      ((List.take_sublist _ _).mem hp)).1
    exact hself (hpe ▸ this)
  · intro p hp c hc hcnot
    set S := orderPeers hash query peerTableKeys with hS
    have hcand :
        PeerDistancePair.mk c (calculateDistance (hash query) (hash c)) ∈ S := by
      have hmem :
          PeerDistancePair.mk c (calculateDistance (hash query) (hash c)) ∈
          (dedupFirst peerTableKeys).map
            (fun peer => PeerDistancePair.mk peer
              (calculateDistance (hash query) (hash peer))) :=
        List.mem_map.mpr ⟨c, mem_dedupFirst.mpr hc, rfl⟩
      exact (List.perm_insertionSort byDistance _).mem_iff.mpr hmem
    have hsplit : S = S.take n ++ S.drop n := (List.take_append_drop n S).symm
    have hnotin :
        PeerDistancePair.mk c (calculateDistance (hash query) (hash c)) ∉
        S.take n := by
      intro habs
      exact hcnot (List.mem_map.mpr ⟨_, habs, rfl⟩)
    have hdrop :
        PeerDistancePair.mk c (calculateDistance (hash query) (hash c)) ∈
        S.drop n := by
      rw [hsplit] at hcand
      rcases List.mem_append.mp hcand with h | h
      · exact absurd h hnotin
      · exact h
    have hpair := orderPeers_sorted hash query peerTableKeys
    rw [← hS, hsplit] at hpair
    have := (List.pairwise_append.mp hpair).2.2
    exact this p hp _ hdrop


theorem C5_amended_witness :
    ("a" ∉ (["bb", "ccc"] : List String)) ∧
    ((getNearestLocalPairs (fun s => [s.length]) "q" ["bb", "ccc"] 2).Pairwise
      (fun a b => a.distance ≤ b.distance) ∧
    (∀ p ∈ getNearestLocalPairs (fun s => [s.length]) "q" ["bb", "ccc"] 2,
      p.peer ∈ ["bb", "ccc"] ∧
      p.distance = calculateDistance [("q":String).length] [p.peer.length]) ∧
    "a" ∉ getNearestLocals (fun s => [s.length]) "q" ["bb", "ccc"] 2 ∧
    (∀ p ∈ getNearestLocalPairs (fun s => [s.length]) "q" ["bb", "ccc"] 2,
      ∀ c ∈ ["bb", "ccc"],
        c ∉ getNearestLocals (fun s => [s.length]) "q" ["bb", "ccc"] 2 →
        p.distance ≤ calculateDistance [("q":String).length] [c.length])) :=
  ⟨by decide,
    C5_amended (fun s => [s.length]) "q" ["bb", "ccc"] "a" 2 (by decide)⟩

/-! ## C8: the storage cache invariant `key = Base64(Blake2b(value))`

`SwarmProto.saveDataLocally` (`src/src/swarm-proto.ts`, lines 146–150) is the
only writer of the storage LRU: it computes `hashFromData(data)` and stores
`data` under that key; `onStoreRequest` (lines 180–183) delegates to it.
Base64 tagging of the digest is a fixed injective renaming of the key space,
so keys are modelled as the digests themselves, and the Blake2b hash is a
parameter `h`. -/

/-- `SwarmProto.MAX_STORAGE_SIZE`. -/
def MAX_STORAGE_SIZE : Nat := 2048

/-- `saveDataLocally`: store `data` under its own hash. -/
def saveDataLocally {Data : Type} [DecidableEq Data]
    (h : Data → List Nat) (storage : List (List Nat × Data)) (data : Data) :
    List (List Nat × Data) :=
  lruSet storage (h data) data MAX_STORAGE_SIZE

/-- `getLocalData`. -/
def getLocalData {Data : Type} [DecidableEq Data]
    (storage : List (List Nat × Data)) (query : List Nat) : Option Data :=
  lruGet storage query

/-- The storage invariant: every entry's key is the hash of its value. -/
def StorageInv {Data : Type} (h : Data → List Nat)
    (storage : List (List Nat × Data)) : Prop :=
  ∀ e ∈ storage, e.1 = h e.2

/-- C8: the storage invariant holds in every reachable state: it holds of the
empty cache, and every write — `saveDataLocally`, used both by the local
`storeData` path and by the remote-store handler `onStoreRequest` — preserves
it; consequently whatever `getLocalData` returns hashes back to its key. -/
theorem C8_storage_invariant {Data : Type} [DecidableEq Data]
    (h : Data → List Nat) (storage : List (List Nat × Data)) (data : Data)
    (hinv : StorageInv h storage) :
    StorageInv h ([] : List (List Nat × Data)) ∧
    StorageInv h (saveDataLocally h storage data) ∧
    (∀ (q : List Nat) (d : Data), getLocalData storage q = some d → q = h d) := by
  refine ⟨?_, ?_, ?_⟩
  · intro e he
    simp at he
  · intro e he
    rcases mem_lruSet he with h1 | h1
    · subst h1
      rfl
    · exact hinv e h1
  · intro q d hq
    simp only [getLocalData, lruGet] at hq
    cases hfind : List.find? (fun e => decide (e.1 = q)) storage with
    | none =>
      rw [hfind] at hq
      cases hq
    | some e =>
      rw [hfind] at hq
      have hq : e.2 = d := by simpa using hq
      have hm := List.find?_some hfind
      have hmem := List.mem_of_find?_eq_some hfind
      have he1 : e.1 = q := by simpa using hm
      rw [← he1, ← hq]
      exact hinv e hmem

theorem C8_storage_invariant_witness :
    StorageInv (fun d : Nat => [d + 1]) [([3], 2)] ∧
    (StorageInv (fun d : Nat => [d + 1]) ([] : List (List Nat × Nat)) ∧
      StorageInv (fun d : Nat => [d + 1])
        (saveDataLocally (fun d : Nat => [d + 1]) [([3], 2)] 7) ∧
      (∀ (q : List Nat) (d : Nat),
        getLocalData [([3], 2)] q = some d → q = [d + 1])) :=
  have hinv : StorageInv (fun d : Nat => [d + 1]) [([3], 2)] := by
    intro e he
    simp only [List.mem_singleton] at he
    subst he
    rfl
  ⟨hinv, C8_storage_invariant (fun d : Nat => [d + 1]) [([3], 2)] 7 hinv⟩

/-! ## HandshakeProto stamping and the request handlers (C1, C2)

Strings (addresses, Base64 digests, raw data) are uniformly modelled as byte
sequences `Str := List Nat`.  The stamp of a request is, in the source,
`bytesToBase64(blake2b(JSON.stringify(payloadWithoutStamp), totp(initiationToken)))`;
JSON serialization of the stamp-less payload is injective on each request
type, so the whole producer chain is modelled as a parameter
`stampOf : ReqCore → Str` applied to the stamp-less request.  Every claim
settled below holds (respectively fails) for every choice of `stampOf`. -/

/-- Byte-sequence model of JS strings. -/
abbrev Str := List Nat

/-- The stamp-less request payloads of the five stamped request types
(`NearestPeersRequest`, `StoreRequest`, `FetchRequest`, `SetMetadataRequest`,
`GetMetadataRequest`) plus the two handshake-layer payloads. -/
inductive ReqCore where
  | nearestPeers (n : Nat) (hash : Str)
  | store (data : Str)
  | fetch (hash : Str)
  | setMetadata (owner : Str) (metadata : List Str)
  | getMetadata (address : Str)
  | initiation
  | pulse
deriving DecidableEq, Repr

/-- A request as it travels on the wire: the payload plus an optional
`stamp` field (`stamp` is a JSON field that may be absent or tampered). -/
structure Req where
  core : ReqCore
  stamp : Option Str
deriving DecidableEq, Repr

/-- `HandshakeProto.stampRequest` (`src/unnamed/part_007`, lines 49–57):
serialize the stamp-less payload, hash it with the TOTP key, Base64 it, and
attach it as `stamp`. -/
def stampRequest (stampOf : ReqCore → Str) (core : ReqCore) : Req :=
  { core := core, stamp := some (stampOf core) }

/-- `HandshakeProto.verifyStamp` (`part_007`, lines 71–81): a missing stamp
fails; otherwise recompute the stamp of the payload with `stamp` removed and
compare.  Returns a `Bool`; it does not throw. -/
def verifyStamp (stampOf : ReqCore → Str) (p : Req) : Bool :=
  match p.stamp with
  | none => false
  | some s => stampOf p.core = s

/-- State touched by the swarm request handlers: the peer table (keys used as
lookup candidates) and the content-addressed storage. -/
structure SwarmState where
  peers : List (Str × Nat)
  storage : List (Str × Str)
deriving DecidableEq, Repr

/-- `SwarmProto.onPeersRequest` (`src/src/swarm-proto.ts`, lines 174–178).
The source calls `this.verifyStamp(detail.payload)` and ignores the returned
boolean, then answers with the nearest local peers unconditionally; the model
preserves the call (and its discarded result) as a `let`. -/
def onPeersRequest (stampOf : ReqCore → Str) (hashF : Str → Str)
    (st : SwarmState) (p : Req) : List Str :=
  let _ := verifyStamp stampOf p
  match p.core with
  | ReqCore.nearestPeers n h => getNearestLocals hashF h (st.peers.map Prod.fst) n
  | _ => []

/-- `SwarmProto.onStoreRequest` (lines 180–183): `verifyStamp` result is
discarded; the data is saved unconditionally. -/
def onStoreRequest (stampOf : ReqCore → Str) (hashF : Str → Str)
    (st : SwarmState) (p : Req) : SwarmState :=
  let _ := verifyStamp stampOf p
  match p.core with
  | ReqCore.store data => { st with storage := saveDataLocally hashF st.storage data }
  | _ => st

/-- `SwarmProto.onFetchRequest` (lines 185–189): `verifyStamp` result is
discarded; the fragment is returned unconditionally. -/
def onFetchRequest (stampOf : ReqCore → Str) (st : SwarmState) (p : Req) :
    Option Str :=
  let _ := verifyStamp stampOf p
  match p.core with
  | ReqCore.fetch h => getLocalData st.storage h
  | _ => none

/-- `MessageProto.METADATA_BUCKET_SIZE`. -/
def METADATA_BUCKET_SIZE : Nat := 2048

/-- State touched by the metadata handlers: the node address and the
per-address metadata LRU (each bucket a JS `Set`, modelled as its insertion
ordered, duplicate-free list). -/
structure MetaState where
  selfAddr : Str
  metadata : List (Str × List Str)
deriving DecidableEq, Repr

/-- JS `Set.prototype.add` over a list of new elements: keep existing
elements (and order), append unseen ones. -/
def setAddAll (existing : List Str) (newElems : List Str) : List Str :=
  newElems.foldl (fun acc h => if h ∈ acc then acc else acc ++ [h]) existing

/-- `MessageProto.storeMetadataLocally` (`src/unnamed/part_009`, lines 37–43):
note the bucket key is `this.address` — the node's own address — not the
owner named in the request. -/
def storeMetadataLocally (st : MetaState) (metadata : List Str) : MetaState :=
  let existingHashes := (lruGet st.metadata st.selfAddr).getD []
  { st with
    metadata := lruSet st.metadata st.selfAddr
      (setAddAll existingHashes metadata) METADATA_BUCKET_SIZE }

/-- `MessageProto.onStoreMetadataRequest` (lines 167–170): no stamp check at
all, and `detail.payload.owner` is dropped on the floor — only
`detail.payload.metadata` is passed on. -/
def onStoreMetadataRequest (st : MetaState) (p : Req) : MetaState :=
  match p.core with
  | ReqCore.setMetadata _owner metadata => storeMetadataLocally st metadata
  | _ => st

/-- `MessageProto.onGetMetadataRequest` (lines 172–178): no stamp check; look
the requested address up in the metadata cache. -/
def onGetMetadataRequest (st : MetaState) (p : Req) : List Str :=
  match p.core with
  | ReqCore.getMetadata address => (lruGet st.metadata address).getD []
  | _ => []

/-- C1: evaluation of the handlers at stamp-invalid inputs.  With
`stampOf = fun _ => [9]` every payload stamped `[0]` fails verification, yet:
the store handler stores the data; the peers handler answers with peers; the
fetch handler returns the fragment; and the two metadata handlers, which
never even call `verifyStamp`, store and return metadata for payloads with
no stamp at all.  The swarm handlers call `verifyStamp` but discard its
boolean result (the handshake-layer handlers, by contrast, `assert` it), and
the metadata handlers never call it, so payloads whose stamp does not verify
are acted upon — contradicting the claim. -/
theorem C1_handlers_act_on_invalid_stamp :
    (verifyStamp (fun _ => [9]) { core := ReqCore.store [7], stamp := some [0] }
        = false ∧
      (onStoreRequest (fun _ => [9]) (fun s => [s.length])
          { peers := [], storage := [] }
          { core := ReqCore.store [7], stamp := some [0] }).storage
        = [([1], [7])]) ∧
    (verifyStamp (fun _ => [9])
        { core := ReqCore.nearestPeers 1 [5], stamp := some [0] } = false ∧
      onPeersRequest (fun _ => [9]) (fun s => [s.length])
          { peers := [([3], 0)], storage := [] }
          { core := ReqCore.nearestPeers 1 [5], stamp := some [0] }
        = [[3]]) ∧
    (verifyStamp (fun _ => [9])
        { core := ReqCore.fetch [1], stamp := some [0] } = false ∧
      onFetchRequest (fun _ => [9]) { peers := [], storage := [([1], [7])] }
          { core := ReqCore.fetch [1], stamp := some [0] }
        = some [7]) ∧
    (verifyStamp (fun _ => [9])
        { core := ReqCore.setMetadata [2] [[5]], stamp := none } = false ∧
      (onStoreMetadataRequest { selfAddr := [0], metadata := [] }
          { core := ReqCore.setMetadata [2] [[5]], stamp := none }).metadata
        = [([0], [[5]])]) ∧
    (verifyStamp (fun _ => [9])
        { core := ReqCore.getMetadata [0], stamp := none } = false ∧
      onGetMetadataRequest { selfAddr := [0], metadata := [([0], [[5]])] }
          { core := ReqCore.getMetadata [0], stamp := none }
        = [[5]]) := by
  decide

/-- C2: after the holder node (address `[0]`) processes
`SetMetadataRequest{owner := [1], metadata := [[5]]}`, the bucket for the
owner `[1]` is absent (the hashes were stored under the holder's own address
`[0]` instead), and a subsequent `GetMetadataRequest{address := [1]}` on the
same node returns the empty list, which does not include `[5]`. -/
theorem C2_counterexample :
    (onStoreMetadataRequest { selfAddr := [0], metadata := [] }
        { core := ReqCore.setMetadata [1] [[5]], stamp := some [9] }).metadata
      = [([0], [[5]])] ∧
    lruGet (onStoreMetadataRequest { selfAddr := [0], metadata := [] }
        { core := ReqCore.setMetadata [1] [[5]], stamp := some [9] }).metadata
        [1]
      = none ∧
    onGetMetadataRequest
        (onStoreMetadataRequest { selfAddr := [0], metadata := [] }
          { core := ReqCore.setMetadata [1] [[5]], stamp := some [9] })
        { core := ReqCore.getMetadata [1], stamp := some [9] }
      = [] := by
  decide

/-! ## C3: `HandshakeProto.sendRequest` never reaches the base layer

`HandshakeProto` overrides `BaseProto.sendRequest` (`src/unnamed/part_007`,
lines 94–102).  After the optional pulse it returns
`this.sendRequest(peerId, payload)`.  Under JS dynamic dispatch
`this.sendRequest` resolves to the most-derived override — this same method
(no subclass overrides it again) — not to `BaseProto.sendRequest`; likewise
`requestPulse` (lines 83–92) awaits `this.sendRequest(peerId, request)`.
So every call recurses into itself and no execution path ever invokes
`BaseProto.sendRequest`.  The two methods are modelled with a fuel parameter:
`none` means the execution did not finish within the given fuel, and a
`some` result would mean the call reached the point of delivering a payload
to the base layer.  We prove the result is `none` for every fuel, i.e. no
finite execution of any length delivers the payload. -/

/-- Handshake-layer state for the `sendRequest` model: the peer table
(address to last-seen timestamp) and the current clock. -/
structure HandshakeState where
  peers : List (Str × Nat)
  now : Nat
deriving DecidableEq, Repr

/-- `HandshakeProto.PEER_FRESHNESS_THRESHOLD`. -/
def PEER_FRESHNESS_THRESHOLD : Nat := 120000

/-- `peerIsStale` (`part_007`, lines 140–147): absent peers are stale; a
present peer is stale when its record is older than the freshness
threshold. -/
def peerIsStale (st : HandshakeState) (address : Str) : Bool :=
  match lruGet st.peers address with
  | none => true
  | some ts => PEER_FRESHNESS_THRESHOLD < st.now - ts

/-- `addPeer` (lines 104–108). -/
def addPeer (st : HandshakeState) (address : Str) : HandshakeState :=
  { st with peers := lruSet st.peers address st.now 256 }

mutual

/-- `HandshakeProto.sendRequest` under dynamic dispatch, fuel-indexed.  The
body mirrors lines 94–102: if the peer is absent or stale, first run
`requestPulse`; then recurse into `this.sendRequest` — the same method. -/
def sendRequestGas : Nat → HandshakeState → Str → Option HandshakeState
  | 0, _, _ => none
  | fuel + 1, st, address =>
    if ¬ (lruHas st.peers address = true) ∨ peerIsStale st address = true then
      match requestPulseGas fuel st address with
      | none => none
      | some st2 => sendRequestGas fuel st2 address
    else
      sendRequestGas fuel st address

/-- `HandshakeProto.requestPulse`, fuel-indexed.  It awaits
`this.sendRequest(peerId, request)` — again the override — and only on its
completion records the peer (lines 83–92). -/
def requestPulseGas : Nat → HandshakeState → Str → Option HandshakeState
  | 0, _, _ => none
  | fuel + 1, st, address =>
    match sendRequestGas fuel st address with
    | none => none
    | some st2 => some (addPeer st2 address)

end

/-- C3: the claim fails — no call of `HandshakeProto.sendRequest` ever
delivers the payload to the base layer's send: for every fuel bound, every
state and every peer the execution fails to complete (the recursion
`sendRequest → requestPulse → sendRequest → …` and
`sendRequest → sendRequest` never terminates).  The fix the spec describes
would be delegation to `super.sendRequest`. -/
theorem C3_sendRequest_never_delivers :
    ∀ (fuel : Nat) (st : HandshakeState) (address : Str),
      sendRequestGas fuel st address = none ∧
      requestPulseGas fuel st address = none := by
  intro fuel
  induction fuel with
  | zero => intro st address; exact ⟨rfl, rfl⟩
  | succ f ih =>
    intro st address
    constructor
    · show sendRequestGas (f + 1) st address = none
      rw [sendRequestGas]
      by_cases h : ¬ (lruHas st.peers address = true) ∨ peerIsStale st address = true
      · rw [if_pos h, (ih st address).2]
      · rw [if_neg h]
        exact (ih st address).1
    · show requestPulseGas (f + 1) st address = none
      rw [requestPulseGas, (ih st address).1]

/-! ## C4 and C10: the callback table of `BaseProto.sendParcel`

`BaseProto` (`src/unnamed/part_002`) correlates responses with a
`callbackQueue : LRUCache` of capacity `CALLBACK_LIMIT = 32` and
`ttl = TIMEOUT = 30 000 ms`.  `sendParcel` (lines 99–117) starts a 30 s timer
and registers the continuation under the parcel's `callbackId`; the inbound
dispatcher (lines 206–209) delivers a `Return` to the continuation only when
`callbackQueue.has(callbackId)` holds; the continuation cancels the timer,
deletes the entry and resolves the promise; the timer handler only resolves
the promise with a timeout rejection — it does not delete the entry.
Promises settle at most once, so a second resolution is a no-op.

The machinery is modelled as a small event system over a state carrying the
callback entries (id, insertion time; recency ordered), the pending timers
(id, scheduled fire time) and the settled outcome of each call's promise. -/

/-- `BaseProto.CALLBACK_LIMIT`. -/
def CALLBACK_LIMIT : Nat := 32

/-- `BaseProto.TIMEOUT` (ms). -/
def TIMEOUT : Nat := 30000

/-- `lru-cache` freshness check used by `has`/`get` on a TTL cache: an entry
is visible while `now - start` does not exceed the TTL. -/
def ttlHas (entries : List (Nat × Nat)) (id : Nat) (now : Nat) : Bool :=
  match lruGet entries id with
  | none => false
  | some start => now - start ≤ TIMEOUT

/-- How one outbound call's promise settled. -/
inductive COutcome where
  | response
  | timeout
deriving DecidableEq, Repr

/-- A promise settles at most once: a second resolution is a no-op. -/
def resolveOnce (outcomes : List (Nat × COutcome)) (id : Nat) (o : COutcome) :
    List (Nat × COutcome) :=
  match lruGet outcomes id with
  | some _ => outcomes
  | none => (id, o) :: outcomes

/-- State of the callback machinery. -/
structure CallbackState where
  entries : List (Nat × Nat)
  timers : List (Nat × Nat)
  outcome : List (Nat × COutcome)
deriving DecidableEq, Repr

/-- The three events that touch the callback table: `sendParcel` registering
a fresh call at time `t`; a `Return` parcel for `id` arriving at time `t`
(line 207); the 30 s timer for `id` firing at its scheduled time `t`. -/
inductive CbEvent where
  | register (id t : Nat)
  | respond (id t : Nat)
  | fire (id t : Nat)
deriving DecidableEq, Repr

/-- One step of the callback machinery, mirroring `sendParcel` and
`onIncomingStream`. -/
def cbStep (s : CallbackState) : CbEvent → CallbackState
  | CbEvent.register id t =>
    { s with
      entries := lruSet s.entries id t CALLBACK_LIMIT,
      timers := (id, t + TIMEOUT) :: s.timers }
  | CbEvent.respond id t =>
    if ttlHas s.entries id t then
      { entries := lruDelete s.entries id,
        timers := s.timers.filter (fun e => e.1 ≠ id),
        outcome := resolveOnce s.outcome id COutcome.response }
    else s
  | CbEvent.fire id t =>
    if (id, t) ∈ s.timers then
      { s with
        timers := s.timers.filter (fun e => e ≠ (id, t)),
        outcome := resolveOnce s.outcome id COutcome.timeout }
    else s

/-- A run of the callback machinery from a state through a list of events. -/
def cbRun (s : CallbackState) (evs : List CbEvent) : CallbackState :=
  evs.foldl cbStep s

theorem lruGet_lruDelete {K V : Type} [DecidableEq K] (l : List (K × V))
    (k : K) : lruGet (lruDelete l k) k = none := by
  unfold lruGet lruDelete
  have hfind : List.find? (fun e => decide (e.1 = k))
      (List.filter (fun e => decide (e.1 ≠ k)) l) = none := by
    rw [List.find?_eq_none]
    intro e he hp
    simp only [decide_eq_true_eq] at hp
    have h2 := (List.mem_filter.mp he).2
    rw [hp] at h2
    simp at h2
  rw [hfind]
  rfl

theorem resolveOnce_stable {outcomes : List (Nat × COutcome)} {id : Nat}
    {o : COutcome} (hid : lruGet outcomes id = some o) (id2 : Nat)
    (o2 : COutcome) : lruGet (resolveOnce outcomes id2 o2) id = some o := by
  unfold resolveOnce
  cases hfind : lruGet outcomes id2 with
  | some x => exact hid
  | none =>
    have hne : id ≠ id2 := by
      intro h
      rw [h, hfind] at hid
      cases hid
    simp only [lruGet, List.find?_cons]
    have : (decide ((id2, o2).1 = id)) = false := by
      simp [Ne.symm hne]
    rw [this]
    exact hid

/-- C4 (counterexample): register call `5` at time `0`, let its timer fire at
time `30000`.  The promise settles with the timeout rejection — but the
callback-table entry `(5, 0)` is still present afterwards: the timeout path
does not remove the entry (only the response path calls
`callbackQueue.delete`). -/
theorem C4_counterexample :
    (cbRun { entries := [], timers := [], outcome := [] }
        [CbEvent.register 5 0, CbEvent.fire 5 30000]).outcome
      = [(5, COutcome.timeout)] ∧
    (cbRun { entries := [], timers := [], outcome := [] }
        [CbEvent.register 5 0, CbEvent.fire 5 30000]).entries
      = [(5, 0)] := by
  decide

/-- C4 (amended): for every reachable state, (1) a `Return` delivered while
the entry is fresh removes the entry; (2) the timeout path leaves the entries
unchanged — the entry is not removed, but (3) because the cache TTL equals
the timeout, a `Return` arriving strictly after the deadline of a call
registered at `t₀` finds the entry stale and is not delivered (the state
does not change at all, so the promise is untouched); (4) each call's promise
settles at most once — once an outcome is recorded, no later event changes
it — so at most one of {response delivered, timeout fired} completes the
request; and (5) a pending timer firing on an unsettled call settles it with
the timeout rejection. -/
theorem C4_amended (s : CallbackState) (id t : Nat)
    (hfresh : ttlHas s.entries id t = true) :
    lruGet (cbStep s (CbEvent.respond id t)).entries id = none ∧
    (∀ id2 t2, (cbStep s (CbEvent.fire id2 t2)).entries = s.entries) ∧
    (∀ t0 tr, lruGet s.entries id = some t0 → t0 + TIMEOUT < tr →
      cbStep s (CbEvent.respond id tr) = s) ∧
    (∀ o, lruGet s.outcome id = some o →
      ∀ ev, lruGet (cbStep s ev).outcome id = some o) ∧
    (∀ tf, (id, tf) ∈ s.timers → lruGet s.outcome id = none →
      lruGet (cbStep s (CbEvent.fire id tf)).outcome id
        = some COutcome.timeout) := by
  refine ⟨?_, ?_, ?_, ?_, ?_⟩
  · simp only [cbStep, hfresh, if_true]
    exact lruGet_lruDelete s.entries id
  · intro id2 t2
    simp only [cbStep]
    by_cases h : (id2, t2) ∈ s.timers
    · rw [if_pos h]
    · rw [if_neg h]
  · intro t0 tr h0 hlate
    have hstale : ttlHas s.entries id tr = false := by
      unfold ttlHas
      rw [h0]
      simp only [decide_eq_false_iff_not]
      omega
    simp only [cbStep, hstale]
    simp
  · intro o ho ev
    cases ev with
    | register id2 t2 => exact ho
    | respond id2 t2 =>
      simp only [cbStep]
      by_cases h : ttlHas s.entries id2 t2 = true
      · rw [if_pos h]
        exact resolveOnce_stable ho id2 COutcome.response
      · rw [if_neg h]
        exact ho
    | fire id2 t2 =>
      simp only [cbStep]
      by_cases h : (id2, t2) ∈ s.timers
      · rw [if_pos h]
        exact resolveOnce_stable ho id2 COutcome.timeout
      · rw [if_neg h]
        exact ho
  · intro tf htimer hnone
    simp only [cbStep, if_pos htimer, resolveOnce, hnone]
    simp [lruGet]

theorem C4_amended_witness :
    ttlHas [(5, 0)] 5 10 = true ∧
    (lruGet (cbStep { entries := [(5, 0)], timers := [(5, 30000)], outcome := [] }
        (CbEvent.respond 5 10)).entries 5 = none ∧
    (∀ id2 t2, (cbStep { entries := [(5, 0)], timers := [(5, 30000)], outcome := [] }
        (CbEvent.fire id2 t2)).entries = [(5, 0)]) ∧
    (∀ t0 tr, lruGet [(5, 0)] 5 = some t0 → t0 + TIMEOUT < tr →
      cbStep { entries := [(5, 0)], timers := [(5, 30000)], outcome := [] }
        (CbEvent.respond 5 tr)
        = { entries := [(5, 0)], timers := [(5, 30000)], outcome := [] }) ∧
    (∀ o, lruGet ([] : List (Nat × COutcome)) 5 = some o →
      ∀ ev, lruGet
        (cbStep (CallbackState.mk [(5, 0)] [(5, 30000)] []) ev).outcome 5
        = some o) ∧
    (∀ tf, (5, tf) ∈ ([(5, 30000)] : List (Nat × Nat)) →
      lruGet ([] : List (Nat × COutcome)) 5 = none →
      lruGet (cbStep { entries := [(5, 0)], timers := [(5, 30000)], outcome := [] }
        (CbEvent.fire 5 tf)).outcome 5 = some COutcome.timeout)) :=
  ⟨by decide,
    C4_amended { entries := [(5, 0)], timers := [(5, 30000)], outcome := [] }
      5 10 (by decide)⟩

/-- C10: (1) the callback table never exceeds 32 entries: the bound holds of
the empty table and is preserved by every event; (2) registering a fresh call
while 32 are outstanding keeps the 31 most recent and evicts the
least-recently-used entry (the tail of the recency list), whose id is then
absent; (3) once its entry is gone, a `Return` for the evicted call is a
complete no-op — the continuation cannot be invoked; (4) its 30 s timer is
untouched by the eviction, and when it fires the call settles with the
timeout rejection (and only then). -/
theorem C10_callback_capacity (s : CallbackState) (id t : Nat)
    (hlen : s.entries.length ≤ 32) :
    (∀ ev, (cbStep s ev).entries.length ≤ 32) ∧
    (s.entries.length = 32 → (s.entries.map Prod.fst).Nodup →
      id ∉ s.entries.map Prod.fst →
      (cbStep s (CbEvent.register id t)).entries
          = (id, t) :: s.entries.dropLast ∧
      (∀ e, s.entries.getLast? = some e →
        lruGet (cbStep s (CbEvent.register id t)).entries e.1 = none)) ∧
    (∀ tr, lruGet s.entries id = none → cbStep s (CbEvent.respond id tr) = s) ∧
    (∀ tf, (id, tf) ∈ s.timers → lruGet s.outcome id = none →
      (cbStep s (CbEvent.register id t)).timers = (id, t + TIMEOUT) :: s.timers ∧
      lruGet (cbStep s (CbEvent.fire id tf)).outcome id
        = some COutcome.timeout) := by
  refine ⟨?_, ?_, ?_, ?_⟩
  · intro ev
    cases ev with
    | register id2 t2 =>
      simp only [cbStep]
      exact lruSet_length s.entries id2 t2 CALLBACK_LIMIT (by norm_num [CALLBACK_LIMIT])
    | respond id2 t2 =>
      simp only [cbStep]
      by_cases h : ttlHas s.entries id2 t2 = true
      · rw [if_pos h]
        exact le_trans (List.length_filter_le _ _) hlen
      · rw [if_neg h]
        exact hlen
    | fire id2 t2 =>
      simp only [cbStep]
      by_cases h : (id2, t2) ∈ s.timers
      · rw [if_pos h]
        exact hlen
      · rw [if_neg h]
        exact hlen
  · intro h32 hnodup hid
    have hfilter : s.entries.filter (fun e => e.1 ≠ id) = s.entries := by
      rw [List.filter_eq_self]
      intro e he
      have hne2 : e.1 ≠ id := fun hc => hid (List.mem_map.mpr ⟨e, he, hc⟩)
      simpa using hne2
    have hdrop : s.entries.take 31 = s.entries.dropLast := by
      rw [List.dropLast_eq_take, h32]
    have hset : (cbStep s (CbEvent.register id t)).entries
        = (id, t) :: s.entries.dropLast := by
      simp only [cbStep, lruSet, CALLBACK_LIMIT, hfilter]
      rw [← hdrop]
    refine ⟨hset, ?_⟩
    intro e hlast
    have hne : s.entries ≠ [] := by
      intro h
      rw [h] at h32
      cases h32
    have hsplit : s.entries = s.entries.dropLast ++ [e] := by
      rw [List.getLast?_eq_getLast _ hne] at hlast
      have hg : s.entries.getLast hne = e := Option.some_inj.mp hlast
      conv_lhs => rw [← List.dropLast_append_getLast hne]
      rw [hg]
    have hnodrop : e.1 ∉ s.entries.dropLast.map Prod.fst := by
      intro hcontra
      rw [hsplit, List.map_append] at hnodup
      have := (List.nodup_append.mp hnodup).2.2
      exact this hcontra (by simp)
    rw [hset]
    simp only [lruGet, List.find?_cons]
    have h1 : (decide ((id, t).1 = e.1)) = false := by
      simp only [decide_eq_false_iff_not]
      intro hcontra
      have : e ∈ s.entries := by
        rw [hsplit]
        simp
      exact hid (List.mem_map.mpr ⟨e, this, hcontra.symm⟩)
    rw [h1]
    have hfind : List.find? (fun x => decide (x.1 = e.1))
        s.entries.dropLast = none := by
      rw [List.find?_eq_none]
      intro x hx hp
      simp only [decide_eq_true_eq] at hp
      exact hnodrop (List.mem_map.mpr ⟨x, hx, hp⟩)
    rw [hfind]
    rfl
  · intro tr habs
    have hstale : ttlHas s.entries id tr = false := by
      unfold ttlHas
      rw [habs]
    simp only [cbStep, hstale]
    simp
  · intro tf htimer hnone
    constructor
    · simp only [cbStep]
    · simp only [cbStep, if_pos htimer, resolveOnce, hnone]
      simp [lruGet]

theorem C10_callback_capacity_witness :
    (([(5, 0)] : List (Nat × Nat)).length ≤ 32) ∧
    ((∀ ev, (cbStep { entries := [(5, 0)], timers := [(7, 30000)], outcome := [] }
        ev).entries.length ≤ 32) ∧
    (([(5, 0)] : List (Nat × Nat)).length = 32 →
      (([(5, 0)] : List (Nat × Nat)).map Prod.fst).Nodup →
      7 ∉ ([(5, 0)] : List (Nat × Nat)).map Prod.fst →
      (cbStep { entries := [(5, 0)], timers := [(7, 30000)], outcome := [] }
        (CbEvent.register 7 60)).entries = (7, 60) :: [(5, 0)].dropLast ∧
      (∀ e, ([(5, 0)] : List (Nat × Nat)).getLast? = some e →
        lruGet (cbStep (CallbackState.mk [(5, 0)] [(7, 30000)] [])
          (CbEvent.register 7 60)).entries e.1 = none)) ∧
    (∀ tr, lruGet [(5, 0)] 7 = none →
      cbStep { entries := [(5, 0)], timers := [(7, 30000)], outcome := [] }
        (CbEvent.respond 7 tr)
        = { entries := [(5, 0)], timers := [(7, 30000)], outcome := [] }) ∧
    (∀ tf, (7, tf) ∈ ([(7, 30000)] : List (Nat × Nat)) →
      lruGet ([] : List (Nat × COutcome)) 7 = none →
      (cbStep { entries := [(5, 0)], timers := [(7, 30000)], outcome := [] }
        (CbEvent.register 7 60)).timers = (7, 60 + TIMEOUT) :: [(7, 30000)] ∧
      lruGet (cbStep (CallbackState.mk [(5, 0)] [(7, 30000)] [])
          (CbEvent.fire 7 tf)).outcome 7
        = some COutcome.timeout)) :=
  ⟨by decide,
    C10_callback_capacity
      { entries := [(5, 0)], timers := [(7, 30000)], outcome := [] } 7 60
      (by decide)⟩

/-! ## C6: Shamir secret sharing (`src/src/tools/cryptography.ts`, lines 18–29)

The `shamir-secret-sharing` npm library called by `shamirSecretSharing` /
`reconstructShamirSecret` is not part of this repository.  Modelled from the
spec: a threshold scheme in which each byte of the secret is the constant
term of a polynomial of degree below the threshold, a share is the vector of
evaluations of these polynomials at a nonzero abscissa (one abscissa per
share, `x = i + 1` for share `i`), and combination is Lagrange interpolation
at `0` of any subset of the shares.  The byte field is modelled as
`ZMod 257` (the least prime field containing all byte values); the field
inverse is implemented by Fermat exponentiation so that concrete instances
reduce inside the kernel. -/

instance : Fact (Nat.Prime 257) := ⟨by norm_num⟩

/-- The field in which share arithmetic is carried out. -/
abbrev F257 := ZMod 257

/-- Embedding of a byte value into the share field. -/
def natToF (b : Nat) : F257 := b

/-- Kernel-reducible field inverse on `F257`: `a ^ 255` by square-and-multiply
(`255 = 0b11111111`). -/
def zinv (a : F257) : F257 :=
  let a2 := a * a
  let a4 := a2 * a2
  let a8 := a4 * a4
  let a16 := a8 * a8
  let a32 := a16 * a16
  let a64 := a32 * a32
  let a128 := a64 * a64
  a128 * a64 * a32 * a16 * a8 * a4 * a2 * a

theorem zinv_eq_pow (a : F257) : zinv a = a ^ 255 := by
  show _ * _ * _ * _ * _ * _ * _ * _ = _
  ring

theorem zinv_eq_inv (a : F257) : zinv a = a⁻¹ := by
  rcases eq_or_ne a 0 with h | h
  · subst h
    rw [zinv_eq_pow]
    simp
  · rw [zinv_eq_pow]
    have h256 : a ^ 256 = 1 := ZMod.pow_card_sub_one_eq_one h
    have hm : a * a ^ 255 = 1 := by
      have hs : a ^ 255 * a = a ^ 256 := by
        rw [← pow_succ]
      rw [mul_comm, hs]
      exact h256
    exact (inv_eq_of_mul_eq_one_right hm).symm

/-- Horner evaluation of a coefficient list (constant term first). -/
def hornerEval (cs : List F257) (x : F257) : F257 :=
  cs.foldr (fun a acc => a + x * acc) 0

theorem hornerEval_eq_eval (cs : List F257) (x : F257) :
    hornerEval cs x = Polynomial.eval x
      (cs.foldr (fun a p => Polynomial.C a + Polynomial.X * p) 0) := by
  induction cs with
  | nil => simp [hornerEval]
  | cons a t ih =>
    show a + x * hornerEval t x = Polynomial.eval x
      (Polynomial.C a + Polynomial.X
        * (t.foldr (fun a p => Polynomial.C a + Polynomial.X * p) 0))
    rw [Polynomial.eval_add, Polynomial.eval_C, Polynomial.eval_mul,
      Polynomial.eval_X, ih]

theorem foldrPoly_degree_lt (cs : List F257) :
    (cs.foldr (fun a p => Polynomial.C a + Polynomial.X * p) 0).degree
      < (cs.length : WithBot Nat) := by
  induction cs with
  | nil =>
    simp only [List.foldr_nil, Polynomial.degree_zero, List.length_nil,
      Nat.cast_zero]
    exact WithBot.bot_lt_coe 0
  | cons a t ih =>
    simp only [List.foldr_cons, List.length_cons]
    refine lt_of_le_of_lt (Polynomial.degree_add_le _ _) (max_lt ?_ ?_)
    · refine lt_of_le_of_lt Polynomial.degree_C_le ?_
      exact_mod_cast Nat.succ_pos t.length
    · rw [Polynomial.degree_mul, Polynomial.degree_X]
      have hcast : ((t.length + 1 : Nat) : WithBot Nat)
          = 1 + (t.length : WithBot Nat) := by
        push_cast
        ring
      rw [hcast]
      exact WithBot.add_lt_add_left (by simp) ih

theorem foldrPoly_eval_zero (s : F257) (cs : List F257) :
    Polynomial.eval 0
      ((s :: cs).foldr (fun a p => Polynomial.C a + Polynomial.X * p) 0) = s := by
  simp

/-- Lagrange interpolation at `0` of a list of points, exactly the number the
library's `combine` computes: `Σᵢ yᵢ · Πⱼ≠ᵢ xⱼ / (xⱼ - xᵢ)` (each factor
written as `(xᵢ - xⱼ)⁻¹ · (0 - xⱼ)`, the same field element). -/
def lagrangeZero (pts : List (F257 × F257)) : F257 :=
  ∑ i : Fin pts.length, (pts.get i).2 *
    ∏ j ∈ Finset.univ.erase i,
      (zinv ((pts.get i).1 - (pts.get j).1) * (0 - (pts.get j).1))

/-- Correctness of interpolation at `0`: if all points lie on a polynomial of
degree below the number of points and the abscissas are distinct, the
interpolated value at `0` is the polynomial's constant term. -/
theorem lagrangeZero_eq (pts : List (F257 × F257)) (f : Polynomial F257)
    (hnd : (pts.map Prod.fst).Nodup)
    (hdeg : f.degree < (pts.length : WithBot Nat))
    (hval : ∀ p ∈ pts, p.2 = Polynomial.eval p.1 f) :
    lagrangeZero pts = Polynomial.eval 0 f := by
  classical
  have hinj : Set.InjOn (fun i : Fin pts.length => (pts.get i).1)
      (Finset.univ : Finset (Fin pts.length)) := by
    intro i _ j _ hij
    have hgetinj := List.nodup_iff_injective_get.mp hnd
    have hi : (pts.map Prod.fst).get ⟨i.val, by simpa using i.isLt⟩
        = (pts.get i).1 := by
      simp
    have hj : (pts.map Prod.fst).get ⟨j.val, by simpa using j.isLt⟩
        = (pts.get j).1 := by
      simp
    have : (⟨i.val, by simpa using i.isLt⟩ : Fin (pts.map Prod.fst).length)
        = ⟨j.val, by simpa using j.isLt⟩ := by
      apply hgetinj
      rw [hi, hj]
      exact hij
    have hv2 := congrArg Fin.val this
    exact Fin.ext hv2
  have hcard : ((Finset.univ : Finset (Fin pts.length)).card : WithBot Nat)
      = (pts.length : WithBot Nat) := by
    rw [Finset.card_univ, Fintype.card_fin]
  have hf := Lagrange.eq_interpolate (F := F257) (v := fun i => (pts.get i).1)
    hinj (by rw [hcard]; exact hdeg)
  have hrf : (fun i : Fin pts.length =>
      Polynomial.eval ((pts.get i).1) f) = fun i => (pts.get i).2 :=
    funext fun i => (hval _ (List.get_mem _ _ _)).symm
  calc lagrangeZero pts
      = ∑ i : Fin pts.length, (pts.get i).2 *
          ∏ j ∈ Finset.univ.erase i,
            (((pts.get i).1 - (pts.get j).1)⁻¹ * (0 - (pts.get j).1)) := by
        unfold lagrangeZero
        simp only [zinv_eq_inv]
    _ = Polynomial.eval 0
          (Lagrange.interpolate Finset.univ (fun i : Fin pts.length => (pts.get i).1)
            (fun i => (pts.get i).2)) := by
        rw [Lagrange.interpolate_apply, Polynomial.eval_finset_sum]
        refine Finset.sum_congr rfl ?_
        intro i _
        rw [Polynomial.eval_mul, Polynomial.eval_C, Lagrange.basis,
          Polynomial.eval_prod]
        refine congrArg (fun z => (pts.get i).2 * z) ?_
        refine Finset.prod_congr rfl ?_
        intro j _
        simp [Lagrange.basisDivisor]
    _ = Polynomial.eval 0 f := by
        rw [← hrf, ← hf]

/-- `MessageProto.SHAMIR_SHARES`. -/
def SHAMIR_SHARES : Nat := 5

/-- `MessageProto.SHAMIR_THRESHOLD`. -/
def SHAMIR_THRESHOLD : Nat := 3

/-- Modelled from the spec: the library's `split(secret, n, k)`.  Share `i`
(for `i < n`) has abscissa `i + 1`; its payload is, for each byte `b` of the
secret, the evaluation at `i + 1` of the polynomial whose constant term is
that byte and whose `k - 1` higher coefficients are drawn from the
randomness `coeffs b`. -/
def shamirSplit (secret : List F257) (k : Nat) (coeffs : Nat → List F257)
    (n : Nat) : List (F257 × List F257) :=
  (List.range n).map (fun i =>
    (((i + 1 : Nat) : F257),
      (List.range secret.length).map (fun b =>
        hornerEval (secret.getD b 0 :: (coeffs b).take (k - 1))
          ((i + 1 : Nat) : F257))))

/-- Modelled from the spec: the library's `combine(shares)` — Lagrange
interpolation of every byte position at `0`. -/
def shamirCombine (shares : List (F257 × List F257)) : List F257 :=
  match shares with
  | [] => []
  | (_, ys0) :: _ =>
    (List.range ys0.length).map (fun b =>
      lagrangeZero (shares.map (fun s => (s.1, s.2.getD b 0))))

theorem mem_shamirSplit {secret : List F257} {k n : Nat}
    {coeffs : Nat → List F257} {s : F257 × List F257}
    (hs : s ∈ shamirSplit secret k coeffs n) :
    ∃ i, i < n ∧ s = (((i + 1 : Nat) : F257),
      (List.range secret.length).map (fun b =>
        hornerEval (secret.getD b 0 :: (coeffs b).take (k - 1))
          ((i + 1 : Nat) : F257))) := by
  rcases List.mem_map.mp hs with ⟨i, hi, rfl⟩
  exact ⟨i, List.mem_range.mp hi, rfl⟩

theorem shamirSplit_fst_nodup (secret : List F257) (k : Nat)
    (coeffs : Nat → List F257) (n : Nat) (hn : n ≤ 256) :
    ((shamirSplit secret k coeffs n).map Prod.fst).Nodup := by
  unfold shamirSplit
  rw [List.map_map]
  have heq : (Prod.fst ∘ fun i : Nat =>
      (((i + 1 : Nat) : F257),
        (List.range secret.length).map (fun b =>
          hornerEval (secret.getD b 0 :: (coeffs b).take (k - 1))
            ((i + 1 : Nat) : F257))))
      = fun i : Nat => ((i + 1 : Nat) : F257) := rfl
  rw [heq]
  refine (List.nodup_range n).map_on ?_
  intro i hi j hj hij
  have hi2 : i + 1 < 257 := by
    have := List.mem_range.mp hi
    omega
  have hj2 : j + 1 < 257 := by
    have := List.mem_range.mp hj
    omega
  have hval : ((i + 1 : Nat) : F257).val = ((j + 1 : Nat) : F257).val := by
    rw [hij]
  rw [ZMod.val_cast_of_lt hi2, ZMod.val_cast_of_lt hj2] at hval
  omega

/-- Modelled from the spec (threshold reconstruction): combining any
sub-collection of at least `k` of the `n` shares of `split(secret, n, k)`
yields the secret, provided the shares fit in the field (`n ≤ 256`). -/
theorem shamirCombine_sub_split (secret : List F257) (k : Nat)
    (coeffs : Nat → List F257) (n : Nat) (sub : List (F257 × List F257))
    (hsub : sub.Sublist (shamirSplit secret k coeffs n))
    (hn : n ≤ 256) (hk1 : 1 ≤ k) (hklen : k ≤ sub.length) :
    shamirCombine sub = secret := by
  cases sub with
  | nil =>
    simp only [List.length_nil] at hklen
    omega
  | cons s0 rest =>
      have hs0 : s0 ∈ shamirSplit secret k coeffs n :=
        hsub.mem (List.mem_cons_self _ _)
      rcases mem_shamirSplit hs0 with ⟨i0, hi0, hs0eq⟩
      have hys0len : s0.2.length = secret.length := by
        rw [hs0eq]
        simp
      have hnodup : ((s0 :: rest).map Prod.fst).Nodup :=
        (hsub.map Prod.fst).nodup (shamirSplit_fst_nodup secret k coeffs n hn)
      have hbyte : ∀ b, b < secret.length →
          lagrangeZero ((s0 :: rest).map (fun s => (s.1, s.2.getD b 0)))
            = secret.getD b 0 := by
        intro b hb
        set cs : List F257 := secret.getD b 0 :: (coeffs b).take (k - 1) with hcs
        have hres := lagrangeZero_eq
          ((s0 :: rest).map (fun s => (s.1, s.2.getD b 0)))
          (cs.foldr (fun a p => Polynomial.C a + Polynomial.X * p) 0)
          ?_ ?_ ?_
        · rw [hres]
          rw [hcs]
          exact foldrPoly_eval_zero _ _
        · rw [List.map_map]
          have heq2 : (Prod.fst ∘ fun s : F257 × List F257 => (s.1, s.2.getD b 0))
              = Prod.fst := rfl
          rw [heq2]
          exact hnodup
        · rw [List.length_map]
          refine lt_of_lt_of_le (foldrPoly_degree_lt cs) ?_
          have hcslen : cs.length ≤ k := by
            rw [hcs]
            simp only [List.length_cons, List.length_take]
            omega
          exact_mod_cast le_trans hcslen hklen
        · intro p hp
          rcases List.mem_map.mp hp with ⟨s, hsmem, rfl⟩
          have hssplit : s ∈ shamirSplit secret k coeffs n := hsub.mem hsmem
          rcases mem_shamirSplit hssplit with ⟨i, hi, hseq⟩
          have hy : s.2.getD b 0 = hornerEval cs ((i + 1 : Nat) : F257) := by
            rw [hseq]
            have hblt : b < (List.range secret.length).length := by
              simpa using hb
            rw [List.getD_eq_getElem _ _ (by simpa using hb)]
            simp [hcs]
          have hx : s.1 = ((i + 1 : Nat) : F257) := by
            rw [hseq]
          show s.2.getD b 0 = Polynomial.eval s.1
            (cs.foldr (fun a p => Polynomial.C a + Polynomial.X * p) 0)
          rw [hy, hx, hornerEval_eq_eval]
      show shamirCombine (s0 :: rest) = secret
      have hcombine : shamirCombine (s0 :: rest)
          = (List.range s0.2.length).map (fun b =>
              lagrangeZero ((s0 :: rest).map (fun s => (s.1, s.2.getD b 0)))) := by
        unfold shamirCombine
        rfl
      rw [hcombine, hys0len]
      refine List.ext_getElem (by simp) ?_
      intro m h1 h2
      rw [List.getElem_map]
      rw [List.getElem_range]
      have hmlt : m < secret.length := by simpa using h1
      rw [hbyte m hmlt]
      rw [List.getD_eq_getElem _ _ hmlt]

/-- Hexadecimal digit as an ASCII byte. -/
def hexDigit (d : Nat) : Nat :=
  if d < 10 then 48 + d else 87 + d

/-- Inverse of `hexDigit`. -/
def unhexDigit (c : Nat) : Nat :=
  if c < 58 then c - 48 else c - 87

theorem unhexDigit_hexDigit (d : Nat) : unhexDigit (hexDigit d) = d := by
  unfold hexDigit unhexDigit
  split <;> split <;> omega

/-- JSON.stringify's escaping of one byte of a string (`"` and backslash,
the two-character control escapes, `\u00XX` for other control bytes, and
everything else verbatim). -/
def jsonEscapeByte (b : Nat) : List Nat :=
  if b = 34 then [92, 34]
  else if b = 92 then [92, 92]
  else if b = 8 then [92, 98]
  else if b = 9 then [92, 116]
  else if b = 10 then [92, 110]
  else if b = 12 then [92, 102]
  else if b = 13 then [92, 114]
  else if b < 32 then [92, 117, 48, 48, hexDigit (b / 16), hexDigit (b % 16)]
  else [b]

/-- Modelled from the spec: `JSON.stringify` of a JS string, acting on the
UTF-8 byte model of strings — the byte sequence wrapped in quotes with each
byte escaped as JSON requires. -/
def jsonQuoteBytes (s : Str) : Str :=
  34 :: ((s.map jsonEscapeByte).flatten ++ [34])

/-- The ASCII bytes of the tag `base64,` that `bytesToBase64` prepends. -/
def B64TAG : Str := [98, 97, 115, 101, 54, 52, 44]

/-- One byte as two hex ASCII bytes. -/
def hexByte (b : Nat) : List Nat := [hexDigit (b / 16), hexDigit (b % 16)]

/-- Modelled from the spec: `bytesToBase64` — an injective rendering of a
byte array into tagged ASCII text.  Like real Base64 the output alphabet
contains no JSON-escapable characters; the byte-to-text code is modelled as
hexadecimal. -/
def b64encode (bs : Str) : Str := B64TAG ++ (bs.map hexByte).flatten

/-- Decode a run of hex byte pairs. -/
def hexPairsDecode : Str → Str
  | c1 :: c2 :: rest => (unhexDigit c1 * 16 + unhexDigit c2) :: hexPairsDecode rest
  | _ => []

/-- Modelled from the spec: `base64ToBytes`, the inverse of `b64encode`. -/
def b64decode (s : Str) : Str := hexPairsDecode (s.drop 7)

theorem b64decode_b64encode (bs : Str) : b64decode (b64encode bs) = bs := by
  unfold b64decode b64encode
  rw [show (7 : Nat) = B64TAG.length from rfl, List.drop_left]
  induction bs with
  | nil => rfl
  | cons b t ih =>
    show hexPairsDecode (hexByte b ++ (t.map hexByte).flatten) = b :: t
    unfold hexByte
    show (unhexDigit (hexDigit (b / 16)) * 16 + unhexDigit (hexDigit (b % 16)))
        :: hexPairsDecode ((t.map hexByte).flatten) = b :: t
    rw [unhexDigit_hexDigit, unhexDigit_hexDigit, ih]
    congr 1
    omega

/-- Modelled from the spec: the library's byte encoding of one share — the
byte payload followed by the abscissa byte. -/
def packShare (sh : F257 × List F257) : Str :=
  sh.2.map ZMod.val ++ [sh.1.val]

/-- Inverse of `packShare`. -/
def unpackShare (bs : Str) : F257 × List F257 :=
  (((bs.getLast?.getD 0 : Nat) : F257), bs.dropLast.map natToF)

theorem unpackShare_packShare (sh : F257 × List F257) :
    unpackShare (packShare sh) = sh := by
  obtain ⟨x, ys⟩ := sh
  unfold unpackShare packShare
  rw [List.getLast?_concat, List.dropLast_concat]
  have h2 : ∀ l : List F257, (l.map ZMod.val).map natToF = l := by
    intro l
    induction l with
    | nil => rfl
    | cons a t ih =>
      simp only [List.map_cons]
      rw [ih]
      show (((a.val : Nat) : F257) :: t) = a :: t
      rw [ZMod.natCast_rightInverse a]
  rw [h2]
  rw [Option.getD_some]
  show ((((x.val : Nat) : F257)), ys) = (x, ys)
  rw [ZMod.natCast_rightInverse x]

/-- `shamirSecretSharing` from `src/src/tools/cryptography.ts` (lines 18–22):
`encode(JSON.stringify(message))` — note the extra JSON serialization of the
already-string message — then the library split, then `bytesToBase64` of
each share.  The library's hidden randomness is surfaced as `coeffs`. -/
def shamirSecretSharing (message : Str) (shares k : Nat)
    (coeffs : Nat → List F257) : List Str :=
  (shamirSplit ((jsonQuoteBytes message).map natToF)
    k coeffs shares).map (fun sh => b64encode (packShare sh))

/-- `reconstructShamirSecret` (lines 24–29): decode each Base64 share,
combine, and decode the bytes back to a string — with **no** `JSON.parse` of
the result. -/
def reconstructShamirSecret (shares : List Str) : Str :=
  (shamirCombine (shares.map (fun s => unpackShare (b64decode s)))).map
    ZMod.val

theorem jsonEscapeByte_length_pos (b : Nat) : 1 ≤ (jsonEscapeByte b).length := by
  unfold jsonEscapeByte
  split
  · simp
  · split
    · simp
    · split
      · simp
      · split
        · simp
        · split
          · simp
          · split
            · simp
            · split
              · simp
              · split
                · simp
                · simp

theorem jsonQuoteBytes_length (s : Str) :
    s.length + 2 ≤ (jsonQuoteBytes s).length := by
  unfold jsonQuoteBytes
  simp only [List.length_cons, List.length_append, List.length_flatten,
    List.length_map, List.map_map]
  have h : s.length ≤ ((s.map jsonEscapeByte).map List.length).sum := by
    induction s with
    | nil => simp
    | cons b t ih =>
      simp only [List.map_cons, List.sum_cons, List.length_cons]
      have := jsonEscapeByte_length_pos b
      omega
  simp only [List.map_map] at h
  omega

theorem hexDigit_lt (d : Nat) (hd : d < 16) : hexDigit d < 257 := by
  unfold hexDigit
  split <;> omega

theorem jsonEscapeByte_bound {b : Nat} (hb : b < 256) :
    ∀ c ∈ jsonEscapeByte b, c < 257 := by
  intro c hc
  unfold jsonEscapeByte at hc
  have h16a : b / 16 < 16 := by omega
  have h16b : b % 16 < 16 := by omega
  have ha := hexDigit_lt (b / 16) h16a
  have hb2 := hexDigit_lt (b % 16) h16b
  split at hc
  · simp at hc; omega
  · split at hc
    · simp at hc; omega
    · split at hc
      · simp at hc; omega
      · split at hc
        · simp at hc; omega
        · split at hc
          · simp at hc; omega
          · split at hc
            · simp at hc; omega
            · split at hc
              · simp at hc; omega
              · split at hc
                · simp at hc
                  rcases hc with h | h | h | h | h | h <;> omega
                · simp at hc; omega

theorem jsonQuoteBytes_bound {s : Str} (hs : ∀ b ∈ s, b < 256) :
    ∀ c ∈ jsonQuoteBytes s, c < 257 := by
  intro c hc
  unfold jsonQuoteBytes at hc
  rcases List.mem_cons.mp hc with h | h
  · omega
  · rcases List.mem_append.mp h with h2 | h2
    · rcases List.mem_flatten.mp h2 with ⟨l, hl, hcl⟩
      rcases List.mem_map.mp hl with ⟨b, hbs, rfl⟩
      exact jsonEscapeByte_bound (hs b hbs) c hcl
    · simp at h2
      omega

/-- C6 (counterexample): for the message `"hi"` (bytes `[104, 105]`),
splitting with `shamirSecretSharing(m, 5, 3)` (randomness fixed to
coefficients `[1, 1]`) and recombining the first 3 of the 5 shares with
`reconstructShamirSecret` yields `[34, 104, 105, 34]` — the bytes of the
JSON string `"\"hi\""`, because `shamirSecretSharing` serializes with
`JSON.stringify` but `reconstructShamirSecret` never parses — and not the
message `[104, 105]` itself. -/
theorem C6_counterexample :
    reconstructShamirSecret
        ((shamirSecretSharing [104, 105] 5 3 (fun _ => [1, 1])).take 3)
      = [34, 104, 105, 34] ∧
    reconstructShamirSecret
        ((shamirSecretSharing [104, 105] 5 3 (fun _ => [1, 1])).take 3)
      ≠ [104, 105] := by
  decide

/-- C6 (amended): for every message `m` (a string, i.e. a byte sequence) and
every choice of the library's split randomness, recombining any subset of at
least `3` of the `5` shares of `shamirSecretSharing(m, 5, 3)` with
`reconstructShamirSecret` yields the JSON serialization
`JSON.stringify(m)` of the message — never the message itself. -/
theorem C6_amended (m : Str) (hm : ∀ b ∈ m, b < 256)
    (coeffs : Nat → List F257) (sub : List Str)
    (hsub : sub.Sublist
      (shamirSecretSharing m SHAMIR_SHARES SHAMIR_THRESHOLD coeffs))
    (hlen : SHAMIR_THRESHOLD ≤ sub.length) :
    reconstructShamirSecret sub = jsonQuoteBytes m ∧
    reconstructShamirSecret sub ≠ m := by
  have hmain : reconstructShamirSecret sub = jsonQuoteBytes m := by
    rcases List.sublist_map_iff.mp hsub with ⟨sub0, hsub0, rfl⟩
    have hlen0 : SHAMIR_THRESHOLD ≤ sub0.length := by
      rw [List.length_map] at hlen
      exact hlen
    unfold reconstructShamirSecret
    rw [List.map_map]
    have hroundtrip : ((fun s => unpackShare (b64decode s))
        ∘ fun sh => b64encode (packShare sh))
        = (id : F257 × List F257 → F257 × List F257) := by
      funext sh
      show unpackShare (b64decode (b64encode (packShare sh))) = sh
      rw [b64decode_b64encode, unpackShare_packShare]
    rw [hroundtrip, List.map_id]
    have hcomb := shamirCombine_sub_split ((jsonQuoteBytes m).map natToF)
      SHAMIR_THRESHOLD coeffs SHAMIR_SHARES sub0 hsub0
      (by norm_num [SHAMIR_SHARES]) (by norm_num [SHAMIR_THRESHOLD]) hlen0
    rw [hcomb]
    have hback : ∀ l : Str, (∀ c ∈ l, c < 257) →
        (l.map natToF).map ZMod.val = l := by
      intro l hl
      induction l with
      | nil => rfl
      | cons c t ih =>
        simp only [List.map_cons]
        rw [ih (fun x hx => hl x (List.mem_cons_of_mem _ hx))]
        have hc : c < 257 := hl c (List.mem_cons_self _ _)
        show ((c : F257)).val :: t = c :: t
        rw [ZMod.val_cast_of_lt hc]
    exact hback _ (jsonQuoteBytes_bound hm)
  refine ⟨hmain, ?_⟩
  intro hcontra
  rw [hmain] at hcontra
  have hlen2 := congrArg List.length hcontra
  have hq := jsonQuoteBytes_length m
  omega

theorem C6_amended_witness :
    (∀ b ∈ ([104, 105] : Str), b < 256) ∧
    ((shamirSecretSharing [104, 105] SHAMIR_SHARES SHAMIR_THRESHOLD
        (fun _ => [1, 1])).take 3).Sublist
      (shamirSecretSharing [104, 105] SHAMIR_SHARES SHAMIR_THRESHOLD
        (fun _ => [1, 1])) ∧
    SHAMIR_THRESHOLD ≤ ((shamirSecretSharing [104, 105] SHAMIR_SHARES
      SHAMIR_THRESHOLD (fun _ => [1, 1])).take 3).length ∧
    (reconstructShamirSecret
        ((shamirSecretSharing [104, 105] SHAMIR_SHARES SHAMIR_THRESHOLD
          (fun _ => [1, 1])).take 3)
      = jsonQuoteBytes [104, 105] ∧
    reconstructShamirSecret
        ((shamirSecretSharing [104, 105] SHAMIR_SHARES SHAMIR_THRESHOLD
          (fun _ => [1, 1])).take 3)
      ≠ [104, 105]) :=
  ⟨by decide, List.take_sublist _ _, by decide,
    C6_amended [104, 105] (by decide) (fun _ => [1, 1]) _
      (List.take_sublist _ _) (by decide)⟩

/-! ## C9: the storage-audit repair step

`auditSwarm` is called in `src/unnamed/part_011` (line 96) but its
implementation is not among the sources; only its callers and the spec
describe it.  Modelled from the spec (§4.3, storage audit): for an audited
locally-held item `I`, recompute the swarm — the locally-nearest
`SWARM_SIZE` peers to `I.hash` — fetch `I.hash` from each of them, and
resend a *StoreRequest(I.data)* to every peer of the swarm that returned
nothing or an invalid fragment.  `verifyDataFragment` is translated from
`src/src/swarm-proto.ts` (lines 74–78); the per-peer fetch outcome is the
environment parameter `fetchResult`. -/

/-- `SwarmProto.SWARM_SIZE`. -/
def SWARM_SIZE : Nat := 3

/-- `SwarmProto.verifyDataFragment` (`swarm-proto.ts`, lines 74–78): a
missing (or JS-falsy, i.e. empty) fragment is invalid; otherwise the
fragment is valid iff its recomputed hash equals the expected one. -/
def verifyDataFragment (hashF : Str → Str) (hash : Str)
    (fragment : Option Str) : Bool :=
  match fragment with
  | none => false
  | some f => if f = [] then false else hash = hashF f

/-- Modelled from the spec: one audit of one item — the addresses that are
sent the repair *StoreRequest(data)*. -/
def auditSwarm (hashF : Str → Str) (peerTableKeys : List Str)
    (fetchResult : Str → Option Str) (data : Str) : List Str :=
  let h := hashF data
  let swarm := getNearestLocals hashF h peerTableKeys SWARM_SIZE
  swarm.filter (fun r => ! verifyDataFragment hashF h (fetchResult r))

/-- C9: in an audit of item `I = (hash, data)`, the swarm is recomputed as
the locally-nearest `SWARM_SIZE` peers to `I.hash`, every swarm peer is
fetched from, and the peers that receive the repair *StoreRequest(I.data)*
are exactly the swarm peers whose fetch returned nothing or an invalid
fragment. -/
theorem C9_audit_repairs (hashF : Str → Str) (peerTableKeys : List Str)
    (fetchResult : Str → Option Str) (data : Str) (r : Str) :
    getNearestLocals hashF (hashF data) peerTableKeys SWARM_SIZE
      = ((orderPeers hashF (hashF data) peerTableKeys).take SWARM_SIZE).map
          (fun p => p.peer) ∧
    (r ∈ auditSwarm hashF peerTableKeys fetchResult data ↔
      (r ∈ getNearestLocals hashF (hashF data) peerTableKeys SWARM_SIZE ∧
        verifyDataFragment hashF (hashF data) (fetchResult r) = false)) := by
  constructor
  · rfl
  · unfold auditSwarm
    rw [List.mem_filter]
    constructor
    · intro ⟨h1, h2⟩
      refine ⟨h1, ?_⟩
      simpa using h2
    · intro ⟨h1, h2⟩
      refine ⟨h1, ?_⟩
      simpa using h2

/-! ## C7: `getInbox` and undersized fragment groups

`MessageProto.getInbox` (`src/unnamed/part_009`, lines 127–165) fans out
metadata requests, fetches every referenced fragment, groups the parsed
fragments by `groupId`, reconstructs **every** group — there is no
`THRESHOLD` check — and finally double-`JSON.parse`s each reconstruction
with no `try`/`catch`.  The network-facing swarm layer is parameterised
(`nearestPeers`, `getRemoteMetadata`, `fetchData`); `JSON.parse` is
modelled (spec-modelled: it is a JS builtin) for exactly the JSON values
this layer produces — string literals and the flat `MessageFragment` /
`Message` objects — together with failure on inputs that cannot begin any
JSON value; the failing input below is checked (by evaluation) to start
with such a byte. -/

/-- A parsed `MessageFragment` `{id, content}`. -/
structure MessageFragment where
  id : Str
  content : Str
deriving DecidableEq, Repr

/-- A parsed `Message` `{text, timestamp}`. -/
structure Message where
  text : Str
  timestamp : Nat
deriving DecidableEq, Repr

/-- Split a byte string at its first unescaped quote, undoing the `\"` and
`\\` escapes (the only escapes the byte strings this layer quotes into
fragment and message objects can contain); other escapes are out of the
modelled grammar. -/
def splitAtQuoteEsc : Str → Option (Str × Str)
  | [] => none
  | 34 :: rest => some ([], rest)
  | 92 :: 34 :: rest => (splitAtQuoteEsc rest).map (fun p => (34 :: p.1, p.2))
  | 92 :: 92 :: rest => (splitAtQuoteEsc rest).map (fun p => (92 :: p.1, p.2))
  | 92 :: _ => none
  | c :: rest => (splitAtQuoteEsc rest).map (fun p => (c :: p.1, p.2))

/-- Body of a JSON string literal after the opening quote: unescape until
the closing quote, which must end the input (`JSON.parse` rejects trailing
text). -/
def jsonUnquoteBody : Str → Option Str
  | [] => none
  | 34 :: [] => some []
  | 34 :: _ :: _ => none
  | 92 :: 34 :: rest => (jsonUnquoteBody rest).map (fun b => 34 :: b)
  | 92 :: 92 :: rest => (jsonUnquoteBody rest).map (fun b => 92 :: b)
  | 92 :: 98 :: rest => (jsonUnquoteBody rest).map (fun b => 8 :: b)
  | 92 :: 116 :: rest => (jsonUnquoteBody rest).map (fun b => 9 :: b)
  | 92 :: 110 :: rest => (jsonUnquoteBody rest).map (fun b => 10 :: b)
  | 92 :: 102 :: rest => (jsonUnquoteBody rest).map (fun b => 12 :: b)
  | 92 :: 114 :: rest => (jsonUnquoteBody rest).map (fun b => 13 :: b)
  | 92 :: 117 :: 48 :: 48 :: h1 :: h2 :: rest =>
    (jsonUnquoteBody rest).map (fun b => (unhexDigit h1 * 16 + unhexDigit h2) :: b)
  | 92 :: _ => none
  | c :: rest => (jsonUnquoteBody rest).map (fun b => c :: b)

/-- Modelled from the spec: `JSON.parse` on a top-level string literal; any
input not starting with a quote is outside the string-literal grammar and
fails here (the concrete inputs this is applied to are checked to be
invalid JSON altogether). -/
def jsonParseStringLit (s : Str) : Option Str :=
  match s with
  | 34 :: rest => jsonUnquoteBody rest
  | _ => none

/-- The ASCII bytes of the object syntax around a serialized
`MessageFragment` and `Message`. -/
def FRAG_PRE : Str := [123, 34, 105, 100, 34, 58, 34]

def FRAG_MID : Str := [44, 34, 99, 111, 110, 116, 101, 110, 116, 34, 58, 34]

def MSG_HEAD : Str := [123, 34, 116, 101, 120, 116, 34, 58]

def TS_MID : Str := [44, 34, 116, 105, 109, 101, 115, 116, 97, 109, 112, 34, 58]

/-- `JSON.stringify({id, content})` as `sendMessage` produces it. -/
def printFragment (id content : Str) : Str :=
  FRAG_PRE ++ id ++ [34] ++ FRAG_MID ++ content ++ [34, 125]

/-- Decimal digit run of a natural number (fuel-structured). -/
def natDigitsGo : Nat → Nat → Str
  | 0, _ => []
  | fuel + 1, n =>
    if n < 10 then [48 + n] else natDigitsGo fuel (n / 10) ++ [48 + n % 10]

def natDigits (n : Nat) : Str := natDigitsGo (n + 1) n

/-- `JSON.stringify({text, timestamp})` as `sendMessage` produces it. -/
def printMessage (text : Str) (ts : Nat) : Str :=
  MSG_HEAD ++ jsonQuoteBytes text ++ TS_MID ++ natDigits ts ++ [125]

/-- Modelled from the spec: `JSON.parse` specialized to serialized
`MessageFragment` objects (`tryParse` + `isMessageFragment` in the code). -/
def parseFragment (s : Str) : Option MessageFragment :=
  if s.take 7 = FRAG_PRE then
    match splitAtQuoteEsc (s.drop 7) with
    | none => none
    | some (idStr, rest1) =>
      if rest1.take 12 = FRAG_MID then
        match splitAtQuoteEsc (rest1.drop 12) with
        | none => none
        | some (contentStr, rest2) =>
          if rest2 = [125] then some (MessageFragment.mk idStr contentStr)
          else none
      else none
  else none

/-- Modelled from the spec: `JSON.parse` specialized to serialized
`Message` objects. -/
def parseMessage (s : Str) : Option Message :=
  if s.take 9 = MSG_HEAD ++ [34] then
    match splitAtQuoteEsc (s.drop 9) with
    | none => none
    | some (text, rest) =>
      if rest.take 13 = TS_MID then
        let digits := (rest.drop 13).takeWhile (fun c => 48 ≤ c ∧ c ≤ 57)
        let after := (rest.drop 13).dropWhile (fun c => 48 ≤ c ∧ c ≤ 57)
        if digits ≠ [] ∧ after = [125] then
          some (Message.mk text (digits.foldl (fun a c => a * 10 + (c - 48)) 0))
        else none
      else none
  else none

/-- `MessageProto.getInbox` (`part_009`, lines 127–165), with the swarm
layer as parameters.  Mirrors the source: union the metadata (a JS `Set`),
fetch every hash, drop `null`s, `tryParse` + `isMessageFragment`, group by
`id` (JS object key insertion order), reconstruct every group, then
`JSON.parse` each result twice — unguarded, so the first failure aborts the
whole call (modelled as `Except.error`). -/
def getInbox (nearestPeers : List Str) (getRemoteMetadata : Str → List Str)
    (fetchData : Str → Option Str) : Except Unit (List Message) :=
  let metadataSet := dedupFirst ((nearestPeers.map getRemoteMetadata).flatten)
  let rawFragments := metadataSet.map fetchData
  let messageFragments :=
    (rawFragments.filterMap (fun x => x)).filterMap parseFragment
  let groupKeys := dedupFirst (messageFragments.map (fun f => f.id))
  let groups :=
    groupKeys.map (fun i => messageFragments.filter (fun f => f.id = i))
  let messages :=
    groups.map (fun g => reconstructShamirSecret (g.map (fun f => f.content)))
  do
    let strings ← messages.mapM (fun s =>
      match jsonParseStringLit s with
      | none => Except.error ()
      | some inner => Except.ok inner)
    strings.mapM (fun s =>
      match parseMessage s with
      | none => Except.error ()
      | some msg => Except.ok msg)

/-- Fixed split randomness for the concrete scenario. -/
def coeffsDemo : Nat → List F257 := fun b => [natToF (b + 1), natToF (2 * b + 3)]

/-- `JSON.stringify({text:"hi",timestamp:5})`. -/
def msgStrA : Str := printMessage [104, 105] 5

/-- `JSON.stringify({text:"yo",timestamp:6})`. -/
def msgStrB : Str := printMessage [121, 111] 6

def sharesA : List Str := shamirSecretSharing msgStrA 5 3 coeffsDemo

def sharesB : List Str := shamirSecretSharing msgStrB 5 3 coeffsDemo

def fragA (i : Nat) : Str := printFragment [97, 97, 97, 97] (sharesA.getD i [])

def fragB (i : Nat) : Str := printFragment [98, 98, 98, 98] (sharesB.getD i [])

/-- The fetch environment of the scenario: all five fragments of message A's
group were stored, but only fragments 0 and 2 of them are retrievable along
with two fragments of message B's group; every other hash is gone. -/
def demoFetch : Str → Option Str := fun h =>
  if h = [10] then some (fragA 0)
  else if h = [11] then some (fragA 1)
  else if h = [12] then some (fragA 2)
  else if h = [20] then some (fragB 0)
  else if h = [21] then some (fragB 1)
  else none

instance {E A : Type} [DecidableEq E] [DecidableEq A] :
    DecidableEq (Except E A) := fun a b =>
  match a, b with
  | Except.error e1, Except.error e2 =>
    if h : e1 = e2 then isTrue (by rw [h])
    else isFalse (fun hc => h (by injection hc))
  | Except.ok x, Except.ok y =>
    if h : x = y then isTrue (by rw [h])
    else isFalse (fun hc => h (by injection hc))
  | Except.error _, Except.ok _ => isFalse (fun hc => Except.noConfusion hc)
  | Except.ok _, Except.error _ => isFalse (fun hc => Except.noConfusion hc)

/-- C7: evaluation of `getInbox` at a failing input.  Five hashes are
retrievable: three fragments of message A's group (threshold met) and only
two fragments of message B's group (fewer than `SHAMIR_THRESHOLD = 3`).
Then: (1) B's group has exactly 2 retrievable shares, below the threshold;
(2) the bytes reconstructed from the undersized group start with byte 28 — a
control byte that cannot begin any JSON value, so `JSON.parse` throws on
them; (3) `getInbox` therefore rejects as a whole instead of silently
dropping the group: it returns an error and message A, whose group met the
threshold, is **not** returned; (4) with the undersized group's hashes
absent, the very same call returns message A.  This contradicts the claim
that a group with fewer than THRESHOLD shares contributes no message,
causes no error, and does not prevent other groups' messages from being
returned. -/
theorem C7_undersized_group_breaks_getInbox :
    (((([[10], [11], [12], [20], [21]] : List Str).filterMap
        demoFetch).filterMap parseFragment).filter
          (fun f => f.id = [98, 98, 98, 98])).length = 2 ∧
    2 < SHAMIR_THRESHOLD ∧
    (reconstructShamirSecret
      [sharesB.getD 0 [], sharesB.getD 1 []]).head? = some 28 ∧
    (¬ (28 = 34 ∨ 28 = 45 ∨ (48 ≤ 28 ∧ 28 ≤ 57) ∨ 28 = 91 ∨ 28 = 123 ∨
        28 = 116 ∨ 28 = 102 ∨ 28 = 110 ∨ 28 = 32 ∨ 28 = 9 ∨ 28 = 10 ∨
        28 = 13)) ∧
    getInbox [[1]] (fun _ => [[10], [11], [12], [20], [21]]) demoFetch
      = Except.error () ∧
    getInbox [[1]] (fun _ => [[10], [11], [12]]) demoFetch
      = Except.ok [Message.mk [104, 105] 5] := by
  decide

end P2P
